import Mathlib

/-!
Shallow embedding of the Huffman codec of `src/buzz.ts` and proofs of the
spec's claims about it.

Conventions of the embedding:
* A TypeScript `string` used as one symbol is a `Char`; the input text is the
  `List Char` of its code points (`for (const char of text)` iterates code
  points).
* `HuffmanTreeNode | null` (with `undefined` behaving like `null` in every
  truthiness test of the source) is one inductive type with a `null`
  constructor.  The `character` field holds `Option Char`: `none` models the
  empty string stored in internal nodes, which is falsy exactly when the
  source tests `node.character`.
* A bit is a `Bool`: `false` models `'0'` (go left), `true` models every
  other character (the source tests `bit === '0'` and otherwise goes right).
* A JS `Map` and a plain-object dictionary keyed by single characters are
  association lists in insertion order: updating an existing key keeps its
  position, a new key is appended.
* The `while (nodeQueue.length > 1)` loop runs at most `length - 1` times
  because each pass removes two nodes and adds one, so running the loop body
  with `length` as fuel is exact.
* `Array.prototype.sort` with comparator `a.frequency - b.frequency` is a
  stable ascending sort by frequency; `insertByFreq`-based insertion sort
  implements exactly that semantics.
-/

namespace Buzz

/-- Models the TS value space `HuffmanTreeNode | null` of `src/buzz.ts`:
`null` is the absent node, `node` the class instance with its four fields. -/
inductive HuffmanTreeNode : Type where
  | null : HuffmanTreeNode
  | node (character : Option Char) (frequency : Nat)
      (leftChild rightChild : HuffmanTreeNode) : HuffmanTreeNode
deriving DecidableEq

/-- Field access `n.character`; `null.character` is never read by the source. -/
def HuffmanTreeNode.character : HuffmanTreeNode → Option Char
  | .null => none
  | .node c _ _ _ => c

/-- Field access `n.frequency`; `null.frequency` is never read by the source. -/
def HuffmanTreeNode.frequency : HuffmanTreeNode → Nat
  | .null => 0
  | .node _ f _ _ => f

/-- Field access `n.leftChild`. -/
def HuffmanTreeNode.leftChild : HuffmanTreeNode → HuffmanTreeNode
  | .null => .null
  | .node _ _ l _ => l

/-- Field access `n.rightChild`. -/
def HuffmanTreeNode.rightChild : HuffmanTreeNode → HuffmanTreeNode
  | .null => .null
  | .node _ _ _ r => r

/-- Lookup in a JS `Map`/object dictionary keyed by characters. -/
def mapGet {α : Type} : List (Char × α) → Char → Option α
  | [], _ => none
  | (k', v) :: rest, k => if k' = k then some v else mapGet rest k

/-- `Map.set` / object property assignment: update in place, append if new. -/
def mapSet {α : Type} : List (Char × α) → Char → α → List (Char × α)
  | [], k, v => [(k, v)]
  | (k', v') :: rest, k, v =>
    if k' = k then (k', v) :: rest else (k', v') :: mapSet rest k v

/-- `calculateCharacterFrequencies` (src/buzz.ts lines 130-136): one pass over
the text incrementing a per-character counter in a `Map`. -/
def calculateCharacterFrequencies (text : List Char) : List (Char × Nat) :=
  text.foldl (fun frequencyMap char =>
    mapSet frequencyMap char ((mapGet frequencyMap char).getD 0 + 1)) []

/-- `createInitialNodeQueue` (lines 144-148): one leaf per map entry, in map
(insertion) order. -/
def createInitialNodeQueue (frequencyMap : List (Char × Nat)) : List HuffmanTreeNode :=
  frequencyMap.map (fun e => HuffmanTreeNode.node (some e.1) e.2 .null .null)

/-- One step of stable insertion: place `n` before the first element whose
frequency is not smaller, keeping earlier equal-frequency elements first. -/
def insertByFreq (n : HuffmanTreeNode) : List HuffmanTreeNode → List HuffmanTreeNode
  | [] => [n]
  | m :: rest =>
    if n.frequency ≤ m.frequency then n :: m :: rest
    else m :: insertByFreq n rest

/-- `nodeQueue.sort((a, b) => a.frequency - b.frequency)`: stable ascending
sort by frequency (ECMAScript sort is stable). -/
def sortNodes : List HuffmanTreeNode → List HuffmanTreeNode
  | [] => []
  | n :: rest => insertByFreq n (sortNodes rest)

/-- Body of the `while (nodeQueue.length > 1)` loop of `buildHuffmanTree`
(lines 43-61), with a fuel counter: sort, shift the two lowest-frequency
nodes, push their parent.  Each pass shrinks the queue by one, so fuel equal
to the initial length makes the fueled loop agree with the `while` loop. -/
def buildLoopAux : Nat → List HuffmanTreeNode → List HuffmanTreeNode
  | 0, nodeQueue => nodeQueue
  | fuel + 1, nodeQueue =>
    if 1 < nodeQueue.length then
      match sortNodes nodeQueue with
      | leftChild :: rightChild :: rest =>
          buildLoopAux fuel
            (rest ++ [HuffmanTreeNode.node none
                (leftChild.frequency + rightChild.frequency) leftChild rightChild])
      | q => q
    else nodeQueue

/-- `buildHuffmanTree` (lines 35-65): frequencies, initial queue, merge loop;
`this.root = nodeQueue[0]` yields the absent node on an empty queue. -/
def buildHuffmanTree (inputText : List Char) : HuffmanTreeNode :=
  let nodeQueue := createInitialNodeQueue (calculateCharacterFrequencies inputText)
  (buildLoopAux nodeQueue.length nodeQueue).headD .null

/-- `generateCodesRecursively` (lines 158-169): depth-first walk writing the
accumulated code at every character-bearing node, `'0'` on the left branch and
`'1'` on the right. -/
def generateCodesRecursively :
    HuffmanTreeNode → List Bool → List (Char × List Bool) → List (Char × List Bool)
  | .null, _, m => m
  | .node c _ l r, code, m =>
    let m1 := match c with
      | some ch => mapSet m ch code
      | none => m
    let m2 := generateCodesRecursively l (code ++ [false]) m1
    generateCodesRecursively r (code ++ [true]) m2

/-- `generateHuffmanCodes` (lines 72-75): reset the map and walk from the
root with the empty code. -/
def generateHuffmanCodes (root : HuffmanTreeNode) : List (Char × List Bool) :=
  generateCodesRecursively root [] []

/-- `encodeText` (lines 84-90): append each character's code,
`encodingMap[char] || ''` contributing nothing for an absent character. -/
def encodeText (encodingMap : List (Char × List Bool)) (inputText : List Char) : List Bool :=
  inputText.foldl (fun encodedText char =>
    encodedText ++ (mapGet encodingMap char).getD []) []

/-- Loop of `decodeText` (lines 104-119): `currentNode` is the second
argument; an exhausted bit list or an absent current node ends the loop, a
character-bearing node after the move emits and resets to the root. -/
def decodeLoop (root : HuffmanTreeNode) : List Bool → HuffmanTreeNode → List Char
  | [], _ => []
  | _ :: _, .null => []
  | bit :: rest, .node _ _ l r =>
    match (if bit then r else l) with
    | .node (some ch) _ _ _ => ch :: decodeLoop root rest root
    | next => decodeLoop root rest next

/-- `decodeText` (lines 100-122): run the loop from the root. -/
def decodeText (root : HuffmanTreeNode) (encodedText : List Bool) : List Char :=
  decodeLoop root encodedText root

/-- The traversal position (`currentNode`) of the decode loop after consuming
a bit list: same recursion as `decodeLoop`, returning the state instead of the
output. -/
def decodeState (root : HuffmanTreeNode) : List Bool → HuffmanTreeNode → HuffmanTreeNode
  | [], currentNode => currentNode
  | _ :: _, .null => .null
  | bit :: rest, .node _ _ l r =>
    match (if bit then r else l) with
    | .node (some _) _ _ _ => decodeState root rest root
    | next => decodeState root rest next

/-- Characters stored in a tree, in depth-first order (node, left, right). -/
def chars : HuffmanTreeNode → List Char
  | .null => []
  | .node c _ l r =>
    (match c with | some ch => [ch] | none => []) ++ chars l ++ chars r

/-- Root-to-node path (`false` = left) of the first depth-first occurrence of
a node carrying character `ch`. -/
def pathTo (ch : Char) : HuffmanTreeNode → Option (List Bool)
  | .null => none
  | .node c _ l r =>
    if c = some ch then some []
    else
      match pathTo ch l with
      | some p => some (false :: p)
      | none =>
        match pathTo ch r with
        | some p => some (true :: p)
        | none => none

/-- Frequency stored at the first depth-first node carrying character `ch`. -/
def leafFreq (ch : Char) : HuffmanTreeNode → Option Nat
  | .null => none
  | .node c f l r =>
    if c = some ch then some f
    else
      match leafFreq ch l with
      | some w => some w
      | none => leafFreq ch r

/-- Shape invariant of every tree the pipeline builds: a node either carries
a character and has no children (a leaf) or carries no character and has two
present children (an internal merge node). -/
def wfNode : HuffmanTreeNode → Bool
  | .null => true
  | .node (some _) _ .null .null => true
  | .node (some _) _ _ _ => false
  | .node none _ .null _ => false
  | .node none _ _ .null => false
  | .node none _ l r => wfNode l && wfNode r

/-- Walk a tree along a bit path (`false` = left child). -/
def follow : HuffmanTreeNode → List Bool → HuffmanTreeNode
  | t, [] => t
  | .null, _ :: _ => .null
  | .node _ _ l r, bit :: rest => follow (if bit then r else l) rest

/-- Number of character-bearing (leaf) nodes of a tree. -/
def numLeaves : HuffmanTreeNode → Nat
  | .null => 0
  | .node c _ l r => (if c.isSome then 1 else 0) + numLeaves l + numLeaves r

/-- `IsStart p q`: the bit string `p` starts the bit string `q`. -/
def IsStart (p q : List Bool) : Prop := q.take p.length = p

/-- Within one tree, a strictly more frequent leaf is never strictly deeper:
the code-length ordering, stated on one tree's stored paths and weights. -/
def DepthMono (t : HuffmanTreeNode) : Prop :=
  ∀ x y px py fx fy,
    pathTo x t = some px → pathTo y t = some py →
    leafFreq x t = some fx → leafFreq y t = some fy →
    fy < fx → px.length ≤ py.length

/-- Cross-tree ordering between two trees of the candidate queue, `t1` listed
before `t2`.  For leaves `x` of one and `y` of the other with `x` strictly
heavier, `x` is at most as deep; when depths tie, the roots compare so that
the tie is consistent with stable extraction order: the lighter leaf's tree
was pushed no later, so it sorts no later among equal root frequencies. -/
def Rel (t1 t2 : HuffmanTreeNode) : Prop :=
  (∀ x y px py fx fy,
     pathTo x t1 = some px → pathTo y t2 = some py →
     leafFreq x t1 = some fx → leafFreq y t2 = some fy →
     fy < fx →
     px.length ≤ py.length ∧
       (px.length = py.length → t2.frequency < t1.frequency)) ∧
  (∀ x y px py fx fy,
     pathTo x t2 = some px → pathTo y t1 = some py →
     leafFreq x t2 = some fx → leafFreq y t1 = some fy →
     fy < fx →
     px.length ≤ py.length ∧
       (px.length = py.length → t1.frequency ≤ t2.frequency))

/-- Structural invariant of the merge loop's candidate queue, relative to the
weight function `fr` assigning every character its input frequency: every
candidate is a present, well-formed tree over a non-empty duplicate-free
character set, the candidates' character sets are pairwise disjoint, and
every leaf stores its character's input frequency. -/
structure SInv (fr : Char → Nat) (Q : List HuffmanTreeNode) : Prop where
  notNull : ∀ t ∈ Q, t ≠ .null
  wfAll : ∀ t ∈ Q, wfNode t = true
  nodupChars : ∀ t ∈ Q, (chars t).Nodup
  charsNe : ∀ t ∈ Q, chars t ≠ []
  disj : Q.Pairwise (fun a b => ∀ c ∈ chars a, c ∉ chars b)
  freqs : ∀ t ∈ Q, ∀ ch ∈ chars t, leafFreq ch t = some (fr ch)

/-- Ordering invariant of the merge loop's candidate queue: each candidate
satisfies the depth ordering internally, every listed pair satisfies the
cross ordering `Rel`, and no internal candidate's root frequency exceeds the
sum of any two distinct candidates' root frequencies (the two last merged
minima never exceed the next two extracted). -/
structure OInv (Q : List HuffmanTreeNode) : Prop where
  mono : ∀ t ∈ Q, DepthMono t
  cross : Q.Pairwise Rel
  twoMin : ∀ d ∈ Q, d.character = none →
    ∀ e ∈ Q, ∀ f ∈ Q, e ≠ f → d.frequency ≤ e.frequency + f.frequency

/-- Multiset of all characters stored anywhere in the queue. -/
def queueChars (Q : List HuffmanTreeNode) : Multiset Char :=
  (Q.map (fun t => ((chars t : List Char) : Multiset Char))).sum

/-! ## Association-list lemmas -/

theorem mapGet_set_self {α : Type} (m : List (Char × α)) (k : Char) (v : α) :
    mapGet (mapSet m k v) k = some v := by
  induction m with
  | nil => simp [mapGet, mapSet]
  | cons e rest ih =>
    obtain ⟨k', v'⟩ := e
    by_cases h : k' = k <;> simp [mapGet, mapSet, h, ih]

theorem mapGet_set_ne {α : Type} (m : List (Char × α)) (k k' : Char) (v : α)
    (h : k ≠ k') : mapGet (mapSet m k v) k' = mapGet m k' := by
  induction m with
  | nil => simp [mapGet, mapSet, h]
  | cons e rest ih =>
    obtain ⟨k0, v0⟩ := e
    by_cases h0 : k0 = k
    · subst h0
      simp [mapGet, mapSet, h]
    · simp [mapGet, mapSet, h0, ih]

/-! ## Encoder lemmas -/

theorem encodeText_eq_append (m : List (Char × List Bool)) :
    ∀ (l : List Char) (acc : List Bool),
      l.foldl (fun encodedText char => encodedText ++ (mapGet m char).getD []) acc
        = acc ++ l.foldl (fun encodedText char => encodedText ++ (mapGet m char).getD []) [] := by
  intro l
  induction l with
  | nil => intro acc; simp
  | cons c rest ih =>
    intro acc
    simp only [List.foldl_cons, List.nil_append]
    rw [ih (acc ++ (mapGet m c).getD []), ih ((mapGet m c).getD [])]
    simp

theorem encodeText_cons (m : List (Char × List Bool)) (c : Char) (l : List Char) :
    encodeText m (c :: l) = (mapGet m c).getD [] ++ encodeText m l := by
  simp only [encodeText, List.foldl_cons, List.nil_append]
  exact encodeText_eq_append m l _

theorem encodeText_nil (m : List (Char × List Bool)) : encodeText m [] = [] := rfl

/-! ## Decoder lemmas -/

theorem decodeLoop_nullCur (root : HuffmanTreeNode) (l : List Bool) :
    decodeLoop root l .null = [] := by
  cases l <;> rfl

theorem decodeState_nullCur (root : HuffmanTreeNode) (l : List Bool) :
    decodeState root l .null = .null := by
  cases l <;> rfl

theorem decodeLoop_append (root : HuffmanTreeNode) :
    ∀ (l1 l2 : List Bool) (cur : HuffmanTreeNode),
      decodeLoop root (l1 ++ l2) cur
        = decodeLoop root l1 cur ++ decodeLoop root l2 (decodeState root l1 cur) := by
  intro l1
  induction l1 with
  | nil => intro l2 cur; simp [decodeLoop, decodeState]
  | cons b rest ih =>
    intro l2 cur
    cases cur with
    | null => simp [decodeLoop, decodeState, decodeLoop_nullCur, decodeState_nullCur]
    | node c f l r =>
      simp only [List.cons_append, decodeLoop, decodeState]
      cases hn : (if b then r else l) with
      | null => simpa using ih l2 .null
      | node cn fn ln rn =>
        cases cn with
        | none => simpa using ih l2 (.node none fn ln rn)
        | some ch => simpa using ih l2 root

/-! ## Claim C7: encoder skips symbols absent from the code table -/

/-- C7: For every input sequence and every code table, the encoder skips any
symbol not present in the code table: the encoded output equals the
concatenation, in input order, of the codes of exactly those input symbols
that have an entry in the table (encoding is a total function, so it never
fails). -/
theorem claim_C7 (m : List (Char × List Bool)) (input : List Char) :
    encodeText m input
      = ((input.filter (fun c => (mapGet m c).isSome)).map
          (fun c => (mapGet m c).getD [])).flatten := by
  induction input with
  | nil => rfl
  | cons c rest ih =>
    rw [encodeText_cons]
    cases h : mapGet m c with
    | none => simp [List.filter_cons, h, ih]
    | some code => simp [List.filter_cons, h, ih]

/-! ## Claim C8: decoder stops when it falls off the tree -/

/-- C8: For every bit sequence and every tree, if during decoding the
traversal moves from the current node to an absent child, the decoder stops
immediately and returns the sequence of symbols decoded so far (the decode of
the bits consumed up to that point), without raising an error. -/
theorem claim_C8 (root : HuffmanTreeNode) (bits1 : List Bool) (b : Bool)
    (bits2 : List Bool) (cur : HuffmanTreeNode)
    (hstate : decodeState root bits1 root = cur) (hcur : cur ≠ .null)
    (hfall : (if b then cur.rightChild else cur.leftChild) = .null) :
    decodeText root (bits1 ++ b :: bits2) = decodeText root bits1 := by
  unfold decodeText
  rw [decodeLoop_append, hstate]
  cases cur with
  | null => exact absurd rfl hcur
  | node c f l r =>
    cases b with
    | false =>
      have hl : l = .null := by simpa [HuffmanTreeNode.leftChild] using hfall
      subst hl
      simp [decodeLoop, decodeLoop_nullCur]
    | true =>
      have hr : r = .null := by simpa [HuffmanTreeNode.rightChild] using hfall
      subst hr
      simp [decodeLoop, decodeLoop_nullCur]

/-- A malformed one-sided tree used to exercise the fall-off recovery. -/
def sampleLopsided : HuffmanTreeNode :=
  .node none 5 (.node (some 'a') 2 .null .null) .null

theorem claim_C8_witness :
    decodeState sampleLopsided [false] sampleLopsided = sampleLopsided ∧
    sampleLopsided ≠ .null ∧
    (if true then sampleLopsided.rightChild else sampleLopsided.leftChild) = .null ∧
    decodeText sampleLopsided ([false] ++ true :: [true, false])
      = decodeText sampleLopsided [false] :=
  ⟨by decide, by decide, by decide,
    claim_C8 sampleLopsided [false] true [true, false] sampleLopsided
      (by decide) (by decide) (by decide)⟩

/-! ## Claim C9: the empty input propagates as empty output through every stage -/

/-- C9: On the empty input, every stage yields an empty result: the analyzer
yields an empty frequency table, the builder yields no tree, encoding the
empty sequence (with the empty table) yields the empty bit sequence, and
decoding the empty bit sequence with no tree yields the empty symbol
sequence. -/
theorem claim_C9 :
    calculateCharacterFrequencies [] = [] ∧
    buildHuffmanTree [] = .null ∧
    encodeText [] [] = [] ∧
    decodeText .null [] = [] := by
  refine ⟨rfl, ?_, rfl, rfl⟩
  decide

/-! ## Frequency analyzer lemmas -/

theorem mapGet_mem_keys {α : Type} (m : List (Char × α)) (k : Char) :
    k ∈ m.map Prod.fst ↔ (mapGet m k).isSome := by
  induction m with
  | nil => simp [mapGet]
  | cons e rest ih =>
    obtain ⟨k0, v0⟩ := e
    by_cases h : k0 = k
    · subst h; simp [mapGet]
    · simp only [List.map_cons, List.mem_cons, mapGet, if_neg h]
      rw [ih]
      constructor
      · rintro (h1 | h1)
        · exact absurd h1.symm h
        · exact h1
      · exact Or.inr

theorem mapSet_keys_of_some {α : Type} (m : List (Char × α)) (k : Char) (v w : α)
    (h : mapGet m k = some w) : (mapSet m k v).map Prod.fst = m.map Prod.fst := by
  induction m with
  | nil => simp [mapGet] at h
  | cons e rest ih =>
    obtain ⟨k0, v0⟩ := e
    by_cases h0 : k0 = k
    · simp [mapSet, h0]
    · simp only [mapGet, if_neg h0] at h
      simp [mapSet, h0, ih h]

theorem mapSet_keys_of_none {α : Type} (m : List (Char × α)) (k : Char) (v : α)
    (h : mapGet m k = none) : (mapSet m k v).map Prod.fst = m.map Prod.fst ++ [k] := by
  induction m with
  | nil => simp [mapSet]
  | cons e rest ih =>
    obtain ⟨k0, v0⟩ := e
    by_cases h0 : k0 = k
    · simp [mapGet, h0] at h
    · simp only [mapGet, if_neg h0] at h
      simp [mapSet, h0, ih h]

theorem mapSet_keys_nodup {α : Type} (m : List (Char × α)) (k : Char) (v : α)
    (h : (m.map Prod.fst).Nodup) : ((mapSet m k v).map Prod.fst).Nodup := by
  cases hk : mapGet m k with
  | some w => rw [mapSet_keys_of_some m k v w hk]; exact h
  | none =>
    rw [mapSet_keys_of_none m k v hk]
    have hnm : k ∉ m.map Prod.fst := by
      rw [mapGet_mem_keys, hk]; simp
    simp [List.nodup_append, h, hnm]

theorem freqFold_get (t : List Char) :
    ∀ (m : List (Char × Nat)) (ch : Char),
      mapGet (t.foldl (fun fm c => mapSet fm c ((mapGet fm c).getD 0 + 1)) m) ch
        = if ch ∈ t ∨ (mapGet m ch).isSome
          then some ((mapGet m ch).getD 0 + t.count ch) else none := by
  induction t with
  | nil =>
    intro m ch
    simp only [List.foldl_nil, List.not_mem_nil, false_or, List.count_nil, Nat.add_zero]
    cases h : mapGet m ch <;> simp [h]
  | cons c rest ih =>
    intro m ch
    simp only [List.foldl_cons]
    rw [ih]
    by_cases hc : ch = c
    · subst hc
      have h1 : mapGet (mapSet m ch ((mapGet m ch).getD 0 + 1)) ch
          = some ((mapGet m ch).getD 0 + 1) := mapGet_set_self m ch _
      simp only [List.mem_cons, true_or, or_true, h1, List.count_cons_self,
        Option.isSome_some, if_true, Option.getD_some]
      simp [if_pos (Or.inl rfl)]
      omega
    · have h1 : mapGet (mapSet m c ((mapGet m c).getD 0 + 1)) ch = mapGet m ch :=
        mapGet_set_ne m c ch _ (fun h => hc h.symm)
      rw [h1]
      have hcount : (c :: rest).count ch = rest.count ch := by
        simp [List.count_cons, hc]
      have hmem : (ch ∈ c :: rest ∨ (mapGet m ch).isSome)
          ↔ (ch ∈ rest ∨ (mapGet m ch).isSome) := by
        simp [List.mem_cons, hc]
      rw [hcount]
      simp only [hmem]

theorem calc_get (input : List Char) (ch : Char) :
    mapGet (calculateCharacterFrequencies input) ch
      = if ch ∈ input then some (input.count ch) else none := by
  unfold calculateCharacterFrequencies
  rw [freqFold_get]
  simp [mapGet]

theorem freqFold_sum (t : List Char) :
    ∀ (m : List (Char × Nat)),
      ((t.foldl (fun fm c => mapSet fm c ((mapGet fm c).getD 0 + 1)) m).map Prod.snd).sum
        = (m.map Prod.snd).sum + t.length := by
  induction t with
  | nil => intro m; simp
  | cons c rest ih =>
    intro m
    simp only [List.foldl_cons, List.length_cons]
    rw [ih]
    have hstep : ∀ (m' : List (Char × Nat)),
        ((mapSet m' c ((mapGet m' c).getD 0 + 1)).map Prod.snd).sum
          = (m'.map Prod.snd).sum + 1 := by
      intro m'
      induction m' with
      | nil => simp [mapSet, mapGet]
      | cons e r2 ih2 =>
        obtain ⟨k0, v0⟩ := e
        by_cases h0 : k0 = c
        · subst h0
          simp [mapSet, mapGet]
          omega
        · have hg : mapGet ((k0, v0) :: r2) c = mapGet r2 c := by
            simp [mapGet, h0]
          simp only [hg, mapSet, if_neg h0, List.map_cons, List.sum_cons]
          rw [ih2]
          omega
    rw [hstep]
    omega

theorem calc_keys_nodup (input : List Char) :
    ((calculateCharacterFrequencies input).map Prod.fst).Nodup := by
  unfold calculateCharacterFrequencies
  generalize hia : ([] : List (Char × Nat)) = m0
  have h0 : ((m0.map Prod.fst).Nodup) := by rw [← hia]; simp
  clear hia
  induction input generalizing m0 with
  | nil => simpa using h0
  | cons c rest ih =>
    simp only [List.foldl_cons]
    exact ih _ (mapSet_keys_nodup _ _ _ h0)

theorem calc_keys_mem (input : List Char) (ch : Char) :
    ch ∈ (calculateCharacterFrequencies input).map Prod.fst ↔ ch ∈ input := by
  rw [mapGet_mem_keys, calc_get]
  by_cases h : ch ∈ input <;> simp [h]

/-! ## Claim C4: frequency table correctness -/

/-- C4: For every input sequence, the frequency table maps each symbol
occurring in the input to a positive count (its number of occurrences),
contains exactly the symbols occurring in the input as keys, and the sum of
all counts equals the length of the input sequence. -/
theorem claim_C4 (input : List Char) :
    (∀ ch ∈ input,
        mapGet (calculateCharacterFrequencies input) ch = some (input.count ch) ∧
        0 < input.count ch) ∧
    (∀ ch, (mapGet (calculateCharacterFrequencies input) ch).isSome ↔ ch ∈ input) ∧
    ((calculateCharacterFrequencies input).map Prod.snd).sum = input.length := by
  refine ⟨?_, ?_, ?_⟩
  · intro ch hch
    rw [calc_get, if_pos hch]
    exact ⟨rfl, List.count_pos_iff.2 hch⟩
  · intro ch
    rw [← calc_keys_mem input ch, mapGet_mem_keys]
  · have := freqFold_sum input []
    unfold calculateCharacterFrequencies
    simpa using this

theorem claim_C4_witness :
    mapGet (calculateCharacterFrequencies ['a', 'a', 'b']) 'a'
        = some ((['a', 'a', 'b']).count 'a') ∧
    0 < (['a', 'a', 'b']).count 'a' :=
  (claim_C4 ['a', 'a', 'b']).1 'a' (by decide)

/-! ## Tree basics: chars, paths, stored weights, shape -/

theorem chars_node (c : Option Char) (f : Nat) (l r : HuffmanTreeNode) :
    chars (.node c f l r)
      = (match c with | some ch => [ch] | none => []) ++ chars l ++ chars r := rfl

theorem pathTo_isSome_iff (ch : Char) :
    ∀ t : HuffmanTreeNode, (pathTo ch t).isSome ↔ ch ∈ chars t := by
  intro t
  induction t with
  | null => simp [pathTo, chars]
  | node c f l r ihl ihr =>
    by_cases hc : c = some ch
    · subst hc
      simp [pathTo, chars]
    · have hch : ch ∈ chars (.node c f l r) ↔ ch ∈ chars l ∨ ch ∈ chars r := by
        rw [chars_node]
        cases c with
        | none => simp
        | some c0 =>
          have : ¬ch = c0 := fun h => hc (by rw [h])
          simp [this]
      rw [hch]
      simp only [pathTo, if_neg hc]
      cases hl : pathTo ch l with
      | some p => simp [← ihl, hl]
      | none =>
        cases hr : pathTo ch r with
        | some p => simp [← ihl, ← ihr, hl, hr]
        | none => simp [← ihl, ← ihr, hl, hr]

theorem pathTo_eq_none_iff (ch : Char) (t : HuffmanTreeNode) :
    pathTo ch t = none ↔ ch ∉ chars t := by
  rw [← pathTo_isSome_iff]
  cases h : pathTo ch t <;> simp [h]

theorem leafFreq_isSome_iff (ch : Char) :
    ∀ t : HuffmanTreeNode, (leafFreq ch t).isSome ↔ ch ∈ chars t := by
  intro t
  induction t with
  | null => simp [leafFreq, chars]
  | node c f l r ihl ihr =>
    by_cases hc : c = some ch
    · subst hc
      simp [leafFreq, chars]
    · have hch : ch ∈ chars (.node c f l r) ↔ ch ∈ chars l ∨ ch ∈ chars r := by
        rw [chars_node]
        cases c with
        | none => simp
        | some c0 =>
          have : ¬ch = c0 := fun h => hc (by rw [h])
          simp [this]
      rw [hch]
      simp only [leafFreq, if_neg hc]
      cases hl : leafFreq ch l with
      | some p => simp [← ihl, hl]
      | none =>
        cases hr : leafFreq ch r with
        | some p => simp [← ihl, ← ihr, hl, hr]
        | none => simp [← ihl, ← ihr, hl, hr]

theorem leafFreq_eq_none_iff (ch : Char) (t : HuffmanTreeNode) :
    leafFreq ch t = none ↔ ch ∉ chars t := by
  rw [← leafFreq_isSome_iff]
  cases h : leafFreq ch t <;> simp [h]

theorem wfNode_some (c0 : Char) (f : Nat) (l r : HuffmanTreeNode)
    (h : wfNode (.node (some c0) f l r) = true) : l = .null ∧ r = .null := by
  cases l <;> cases r <;> simp_all [wfNode]

theorem wfNode_none (f : Nat) (l r : HuffmanTreeNode)
    (h : wfNode (.node none f l r) = true) :
    l ≠ .null ∧ r ≠ .null ∧ wfNode l = true ∧ wfNode r = true := by
  cases l <;> cases r <;> simp_all [wfNode]

theorem follow_nullTree : ∀ p : List Bool, follow .null p = .null := by
  intro p; cases p <;> rfl

theorem follow_append (t : HuffmanTreeNode) :
    ∀ (p q : List Bool), follow t (p ++ q) = follow (follow t p) q := by
  induction t with
  | null => intro p q; rw [follow_nullTree, follow_nullTree, follow_nullTree]
  | node c f l r ihl ihr =>
    intro p q
    cases p with
    | nil => rfl
    | cons b p' =>
      simp only [List.cons_append, follow]
      cases b
      · simpa using ihl p' q
      · simpa using ihr p' q

theorem pathTo_follow (ch : Char) :
    ∀ (t : HuffmanTreeNode) (p : List Bool), wfNode t = true →
      pathTo ch t = some p →
      ∃ f, follow t p = .node (some ch) f .null .null := by
  intro t
  induction t with
  | null => intro p _ hp; simp [pathTo] at hp
  | node c f l r ihl ihr =>
    intro p hwf hp
    by_cases hc : c = some ch
    · subst hc
      simp only [pathTo, if_pos rfl] at hp
      obtain ⟨hl, hr⟩ := wfNode_some ch f l r hwf
      subst hl; subst hr
      cases hp
      exact ⟨f, rfl⟩
    · simp only [pathTo, if_neg hc] at hp
      have hcnone : c = none := by
        cases c with
        | none => rfl
        | some c0 =>
          obtain ⟨hl, hr⟩ := wfNode_some c0 f l r hwf
          subst hl; subst hr
          simp [pathTo] at hp
      subst hcnone
      obtain ⟨-, -, hwl, hwr⟩ := wfNode_none f l r hwf
      cases hl : pathTo ch l with
      | some pl =>
        rw [hl] at hp
        cases hp
        simpa [follow] using ihl pl hwl hl
      | none =>
        rw [hl] at hp
        cases hr : pathTo ch r with
        | some pr =>
          rw [hr] at hp
          cases hp
          simpa [follow] using ihr pr hwr hr
        | none => rw [hr] at hp; cases hp

theorem IsStart_iff (p q : List Bool) : IsStart p q ↔ ∃ r, p ++ r = q := by
  unfold IsStart
  constructor
  · intro h
    refine ⟨q.drop p.length, ?_⟩
    conv_rhs => rw [← List.take_append_drop p.length q]
    rw [h]
  · rintro ⟨r, rfl⟩
    simp

/-! ## Code-table generation: the entry of a character is its tree path -/

theorem gen_node (c : Option Char) (f : Nat) (l r : HuffmanTreeNode)
    (code : List Bool) (m : List (Char × List Bool)) :
    generateCodesRecursively (.node c f l r) code m
      = generateCodesRecursively r (code ++ [true])
          (generateCodesRecursively l (code ++ [false])
            (match c with | some ch => mapSet m ch code | none => m)) := rfl

theorem gen_get :
    ∀ (t : HuffmanTreeNode) (code : List Bool) (m : List (Char × List Bool)) (ch : Char),
      (chars t).Nodup →
      mapGet (generateCodesRecursively t code m) ch
        = if ch ∈ chars t then (pathTo ch t).map (fun p => code ++ p)
          else mapGet m ch := by
  intro t
  induction t with
  | null =>
    intro code m ch _
    simp [generateCodesRecursively, chars]
  | node c f l r ihl ihr =>
    intro code m ch hnd
    rw [chars_node] at hnd
    obtain ⟨hXl, hndr, hdisj2⟩ := List.nodup_append.1 hnd
    obtain ⟨hX, hndl, hdisj1⟩ := List.nodup_append.1 hXl
    rw [gen_node, ihr _ _ ch hndr]
    by_cases hr : ch ∈ chars r
    · have hcr : c ≠ some ch := by
        rintro rfl
        exact hdisj2 (by simp) hr
      have hlr : ch ∉ chars l := fun hl => hdisj2 (by simp [hl]) hr
      obtain ⟨pr, hpr⟩ := Option.isSome_iff_exists.1 ((pathTo_isSome_iff ch r).2 hr)
      have hmem : ch ∈ chars (.node c f l r) := by
        rw [chars_node]; simp [hr]
      rw [if_pos hr, if_pos hmem]
      simp only [pathTo, if_neg hcr, (pathTo_eq_none_iff ch l).2 hlr, hpr]
      simp
    · rw [if_neg hr, ihl _ _ ch hndl]
      by_cases hl : ch ∈ chars l
      · have hcl : c ≠ some ch := by
          rintro rfl
          exact hdisj1 (by simp) hl
        obtain ⟨pl, hpl⟩ := Option.isSome_iff_exists.1 ((pathTo_isSome_iff ch l).2 hl)
        have hmem : ch ∈ chars (.node c f l r) := by
          rw [chars_node]; simp [hl]
        rw [if_pos hl, if_pos hmem]
        simp only [pathTo, if_neg hcl, hpl]
        simp
      · rw [if_neg hl]
        cases c with
        | none =>
          have hmem : ch ∉ chars (.node none f l r) := by
            rw [chars_node]; simp [hl, hr]
          rw [if_neg hmem]
        | some c0 =>
          by_cases hcc : c0 = ch
          · subst hcc
            have hmem : c0 ∈ chars (.node (some c0) f l r) := by
              rw [chars_node]; simp
            rw [if_pos hmem]
            simp only [pathTo, if_pos rfl]
            simp [mapGet_set_self]
          · have hch : ¬ch = c0 := fun h => hcc h.symm
            have hmem : ch ∉ chars (.node (some c0) f l r) := by
              rw [chars_node]; simp [hl, hr, hch]
            rw [if_neg hmem]
            exact mapGet_set_ne m c0 ch code hcc

theorem generateHuffmanCodes_get (root : HuffmanTreeNode) (ch : Char)
    (hnd : (chars root).Nodup) :
    mapGet (generateHuffmanCodes root) ch
      = if ch ∈ chars root then pathTo ch root else none := by
  unfold generateHuffmanCodes
  rw [gen_get root [] [] ch hnd]
  by_cases h : ch ∈ chars root
  · rw [if_pos h, if_pos h]
    obtain ⟨p, hp⟩ := Option.isSome_iff_exists.1 ((pathTo_isSome_iff ch root).2 h)
    simp [hp]
  · rw [if_neg h, if_neg h]
    rfl

/-! ## Decoder walks a full code and emits its character -/

theorem decodeLoop_emit (root : HuffmanTreeNode) :
    ∀ (p : List Bool) (n : HuffmanTreeNode) (ch : Char) (fl : Nat) (rest : List Bool),
      p ≠ [] → wfNode n = true →
      follow n p = .node (some ch) fl .null .null →
      decodeLoop root (p ++ rest) n = ch :: decodeLoop root rest root := by
  intro p
  induction p with
  | nil => intro n ch fl rest hne; exact absurd rfl hne
  | cons b p' ih =>
    intro n ch fl rest _ hwf hfol
    cases n with
    | null => rw [follow_nullTree] at hfol; cases hfol
    | node c f l r =>
      simp only [follow] at hfol
      cases p' with
      | nil =>
        simp only [follow] at hfol
        simp only [List.cons_append, List.nil_append, decodeLoop]
        rw [hfol]
        rfl
      | cons b2 p2 =>
        have hcnone : c = none := by
          cases c with
          | none => rfl
          | some c0 =>
            obtain ⟨hl, hr⟩ := wfNode_some c0 f l r hwf
            subst hl; subst hr
            rw [show (if b then HuffmanTreeNode.null else HuffmanTreeNode.null)
                = HuffmanTreeNode.null from by cases b <;> rfl,
              follow_nullTree] at hfol
            cases hfol
        subst hcnone
        obtain ⟨hlne, hrne, hwl, hwr⟩ := wfNode_none f l r hwf
        cases hnx : (if b then r else l) with
        | null => rw [hnx, follow_nullTree] at hfol; cases hfol
        | node cn fn ln rn =>
          have hwn : wfNode (.node cn fn ln rn) = true := by
            rw [← hnx]; cases b
            · simpa using hwl
            · simpa using hwr
          have hcn : cn = none := by
            cases cn with
            | none => rfl
            | some cx =>
              obtain ⟨hl2, hr2⟩ := wfNode_some cx fn ln rn hwn
              subst hl2; subst hr2
              rw [hnx] at hfol
              simp only [follow] at hfol
              rw [show (if b2 then HuffmanTreeNode.null else HuffmanTreeNode.null)
                  = HuffmanTreeNode.null from by cases b2 <;> rfl,
                follow_nullTree] at hfol
              cases hfol
          subst hcn
          rw [hnx] at hfol
          simp only [List.cons_append, decodeLoop, hnx]
          exact ih (.node none fn ln rn) ch fl rest (by simp) hwn hfol

/-! ## Prefix-freeness of tree paths -/

theorem pathTo_not_start (t : HuffmanTreeNode) (x y : Char) (px py : List Bool)
    (hwf : wfNode t = true) (hxy : x ≠ y)
    (hx : pathTo x t = some px) (hy : pathTo y t = some py) :
    ¬ IsStart px py := by
  rw [IsStart_iff]
  rintro ⟨rest, rfl⟩
  obtain ⟨fx, hfx⟩ := pathTo_follow x t px hwf hx
  obtain ⟨fy, hfy⟩ := pathTo_follow y t (px ++ rest) hwf hy
  rw [follow_append, hfx] at hfy
  cases rest with
  | nil =>
    simp only [follow] at hfy
    cases hfy
    exact hxy rfl
  | cons b rest' =>
    simp only [follow] at hfy
    rw [show (if b then HuffmanTreeNode.null else HuffmanTreeNode.null)
        = HuffmanTreeNode.null from by cases b <;> rfl,
      follow_nullTree] at hfy
    cases hfy

/-! ## Sorting lemmas -/

theorem insertByFreq_perm (n : HuffmanTreeNode) :
    ∀ l : List HuffmanTreeNode, (insertByFreq n l).Perm (n :: l) := by
  intro l
  induction l with
  | nil => exact List.Perm.refl _
  | cons m rest ih =>
    by_cases h : n.frequency ≤ m.frequency
    · simp [insertByFreq, h]
    · simp only [insertByFreq, if_neg h]
      exact (ih.cons m).trans (List.Perm.swap n m rest)

theorem sortNodes_perm :
    ∀ l : List HuffmanTreeNode, (sortNodes l).Perm l := by
  intro l
  induction l with
  | nil => exact List.Perm.refl _
  | cons n rest ih =>
    exact (insertByFreq_perm n (sortNodes rest)).trans (ih.cons n)

theorem sortNodes_length (l : List HuffmanTreeNode) :
    (sortNodes l).length = l.length :=
  (sortNodes_perm l).length_eq

theorem sortNodes_mem (l : List HuffmanTreeNode) (t : HuffmanTreeNode) :
    t ∈ sortNodes l ↔ t ∈ l :=
  (sortNodes_perm l).mem_iff

theorem insertByFreq_pairwise {R : HuffmanTreeNode → HuffmanTreeNode → Prop}
    (hswap : ∀ a b, R a b → b.frequency < a.frequency → R b a)
    (n : HuffmanTreeNode) :
    ∀ l : List HuffmanTreeNode, (∀ m ∈ l, R n m) → l.Pairwise R →
      (insertByFreq n l).Pairwise R := by
  intro l
  induction l with
  | nil => intro _ _; simp [insertByFreq]
  | cons m rest ih =>
    intro h1 h2
    rw [List.pairwise_cons] at h2
    obtain ⟨hm, hrest⟩ := h2
    by_cases h : n.frequency ≤ m.frequency
    · simp only [insertByFreq, if_pos h]
      rw [List.pairwise_cons]
      exact ⟨h1, List.pairwise_cons.2 ⟨hm, hrest⟩⟩
    · simp only [insertByFreq, if_neg h]
      rw [List.pairwise_cons]
      constructor
      · intro z hz
        rw [(insertByFreq_perm n rest).mem_iff] at hz
        rcases List.mem_cons.1 hz with h' | hz
        · subst h'
          exact hswap _ _ (h1 _ (by simp)) (Nat.lt_of_not_le h)
        · exact hm z hz
      · exact ih (fun z hz => h1 z (by simp [hz])) hrest

theorem sortNodes_pairwise {R : HuffmanTreeNode → HuffmanTreeNode → Prop}
    (hswap : ∀ a b, R a b → b.frequency < a.frequency → R b a) :
    ∀ l : List HuffmanTreeNode, l.Pairwise R → (sortNodes l).Pairwise R := by
  intro l
  induction l with
  | nil => intro _; simp [sortNodes]
  | cons n rest ih =>
    intro h
    rw [List.pairwise_cons] at h
    obtain ⟨hn, hrest⟩ := h
    exact insertByFreq_pairwise hswap n (sortNodes rest)
      (fun z hz => hn z ((sortNodes_perm rest).mem_iff.1 hz)) (ih hrest)

theorem insertByFreq_sorted (n : HuffmanTreeNode) :
    ∀ l : List HuffmanTreeNode,
      l.Pairwise (fun a b => a.frequency ≤ b.frequency) →
      (insertByFreq n l).Pairwise (fun a b => a.frequency ≤ b.frequency) := by
  intro l
  induction l with
  | nil => intro _; simp [insertByFreq]
  | cons m rest ih =>
    intro h
    rw [List.pairwise_cons] at h
    obtain ⟨hm, hrest⟩ := h
    by_cases hle : n.frequency ≤ m.frequency
    · simp only [insertByFreq, if_pos hle]
      rw [List.pairwise_cons]
      refine ⟨?_, List.pairwise_cons.2 ⟨hm, hrest⟩⟩
      intro z hz
      rcases List.mem_cons.1 hz with rfl | hz
      · exact hle
      · exact Nat.le_trans hle (hm z hz)
    · simp only [insertByFreq, if_neg hle]
      rw [List.pairwise_cons]
      constructor
      · intro z hz
        rw [(insertByFreq_perm n rest).mem_iff] at hz
        rcases List.mem_cons.1 hz with rfl | hz
        · exact Nat.le_of_lt (Nat.lt_of_not_le hle)
        · exact hm z hz
      · exact ih hrest

theorem sortNodes_sorted :
    ∀ l : List HuffmanTreeNode,
      (sortNodes l).Pairwise (fun a b => a.frequency ≤ b.frequency) := by
  intro l
  induction l with
  | nil => simp [sortNodes]
  | cons n rest ih => exact insertByFreq_sorted n (sortNodes rest) ih

/-! ## Merge-node lemmas -/

theorem chars_merge (f : Nat) (a b : HuffmanTreeNode) :
    chars (.node none f a b) = chars a ++ chars b := by
  rw [chars_node]; rfl

theorem wfNode_merge (f : Nat) (a b : HuffmanTreeNode)
    (ha : wfNode a = true) (hb : wfNode b = true)
    (hna : a ≠ .null) (hnb : b ≠ .null) :
    wfNode (.node none f a b) = true := by
  cases a with
  | null => exact absurd rfl hna
  | node ca fa la ra =>
    cases b with
    | null => exact absurd rfl hnb
    | node cb fb lb rb => simp [wfNode, ha, hb]

theorem pathTo_merge_left (ch : Char) (f : Nat) (a b : HuffmanTreeNode)
    (h : ch ∈ chars a) :
    pathTo ch (.node none f a b) = (pathTo ch a).map (fun p => false :: p) := by
  obtain ⟨p, hp⟩ := Option.isSome_iff_exists.1 ((pathTo_isSome_iff ch a).2 h)
  simp [pathTo, hp]

theorem pathTo_merge_right (ch : Char) (f : Nat) (a b : HuffmanTreeNode)
    (h : ch ∉ chars a) :
    pathTo ch (.node none f a b) = (pathTo ch b).map (fun p => true :: p) := by
  have ha : pathTo ch a = none := (pathTo_eq_none_iff ch a).2 h
  cases hb : pathTo ch b <;> simp [pathTo, ha, hb]

theorem leafFreq_merge_left (ch : Char) (f : Nat) (a b : HuffmanTreeNode)
    (h : ch ∈ chars a) :
    leafFreq ch (.node none f a b) = leafFreq ch a := by
  obtain ⟨w, hw⟩ := Option.isSome_iff_exists.1 ((leafFreq_isSome_iff ch a).2 h)
  simp [leafFreq, hw]

theorem leafFreq_merge_right (ch : Char) (f : Nat) (a b : HuffmanTreeNode)
    (h : ch ∉ chars a) :
    leafFreq ch (.node none f a b) = leafFreq ch b := by
  have ha : leafFreq ch a = none := (leafFreq_eq_none_iff ch a).2 h
  simp [leafFreq, ha]

/-! ## Structural invariant machinery for the merge loop -/

theorem sInv_sort (fr : Char → Nat) (Q : List HuffmanTreeNode) (h : SInv fr Q) :
    SInv fr (sortNodes Q) := by
  refine ⟨?_, ?_, ?_, ?_, ?_, ?_⟩
  · exact fun t ht => h.notNull t ((sortNodes_mem Q t).1 ht)
  · exact fun t ht => h.wfAll t ((sortNodes_mem Q t).1 ht)
  · exact fun t ht => h.nodupChars t ((sortNodes_mem Q t).1 ht)
  · exact fun t ht => h.charsNe t ((sortNodes_mem Q t).1 ht)
  · exact sortNodes_pairwise (fun a b hab _ c hcb hca => hab c hca hcb) Q h.disj
  · exact fun t ht => h.freqs t ((sortNodes_mem Q t).1 ht)

theorem sInv_step (fr : Char → Nat) (a b : HuffmanTreeNode)
    (rest : List HuffmanTreeNode) (h : SInv fr (a :: b :: rest)) :
    SInv fr (rest ++ [.node none (a.frequency + b.frequency) a b]) := by
  have hmema : a ∈ a :: b :: rest := by simp
  have hmemb : b ∈ a :: b :: rest := by simp
  have hd0 := h.disj
  rw [List.pairwise_cons] at hd0
  obtain ⟨hda, hd1⟩ := hd0
  rw [List.pairwise_cons] at hd1
  obtain ⟨hdb, hdrest⟩ := hd1
  have hdab : ∀ c ∈ chars a, c ∉ chars b := hda b (by simp)
  refine ⟨?_, ?_, ?_, ?_, ?_, ?_⟩
  · intro t ht
    rcases List.mem_append.1 ht with ht | ht
    · exact h.notNull t (by simp [ht])
    · rw [List.mem_singleton.1 ht]; intro hcon; cases hcon
  · intro t ht
    rcases List.mem_append.1 ht with ht | ht
    · exact h.wfAll t (by simp [ht])
    · rw [List.mem_singleton.1 ht]
      exact wfNode_merge _ a b (h.wfAll a hmema) (h.wfAll b hmemb)
        (h.notNull a hmema) (h.notNull b hmemb)
  · intro t ht
    rcases List.mem_append.1 ht with ht | ht
    · exact h.nodupChars t (by simp [ht])
    · rw [List.mem_singleton.1 ht, chars_merge]
      exact List.nodup_append.2
        ⟨h.nodupChars a hmema, h.nodupChars b hmemb, hdab⟩
  · intro t ht
    rcases List.mem_append.1 ht with ht | ht
    · exact h.charsNe t (by simp [ht])
    · rw [List.mem_singleton.1 ht, chars_merge]
      intro hcon
      exact h.charsNe a hmema (List.append_eq_nil.1 hcon).1
  · rw [List.pairwise_append]
    refine ⟨hdrest, by simp, ?_⟩
    intro d hd e he
    rw [List.mem_singleton.1 he, chars_merge]
    intro ch hchd hch
    rcases List.mem_append.1 hch with hch | hch
    · exact hda d (by simp [hd]) ch hch hchd
    · exact hdb d hd ch hch hchd
  · intro t ht
    rcases List.mem_append.1 ht with ht | ht
    · exact h.freqs t (by simp [ht])
    · rw [List.mem_singleton.1 ht]
      intro ch hch
      rw [chars_merge] at hch
      rcases List.mem_append.1 hch with hch | hch
      · rw [leafFreq_merge_left ch _ a b hch]
        exact h.freqs a hmema ch hch
      · have hcha : ch ∉ chars a := fun hc => hdab ch hc hch
        rw [leafFreq_merge_right ch _ a b hcha]
        exact h.freqs b hmemb ch hch

theorem queueChars_perm (Q Q' : List HuffmanTreeNode) (h : Q.Perm Q') :
    queueChars Q = queueChars Q' :=
  List.Perm.sum_eq (h.map _)

theorem queueChars_cons (t : HuffmanTreeNode) (Q : List HuffmanTreeNode) :
    queueChars (t :: Q) = (chars t : Multiset Char) + queueChars Q := by
  simp [queueChars]

theorem queueChars_append (Q1 Q2 : List HuffmanTreeNode) :
    queueChars (Q1 ++ Q2) = queueChars Q1 + queueChars Q2 := by
  simp [queueChars]

theorem queueChars_step (a b : HuffmanTreeNode) (rest : List HuffmanTreeNode) :
    queueChars (rest ++ [.node none (a.frequency + b.frequency) a b])
      = queueChars (a :: b :: rest) := by
  simp only [queueChars, List.map_append, List.sum_append, List.map_cons,
    List.sum_cons, List.map_nil, List.sum_nil, add_zero, chars_merge,
    ← Multiset.coe_add]
  abel

theorem buildLoopAux_step (fuel : Nat) (Q : List HuffmanTreeNode)
    (a b : HuffmanTreeNode) (rest : List HuffmanTreeNode)
    (hlen : 1 < Q.length) (hq : sortNodes Q = a :: b :: rest) :
    buildLoopAux (fuel + 1) Q
      = buildLoopAux fuel (rest ++ [.node none (a.frequency + b.frequency) a b]) := by
  have hunf : buildLoopAux (fuel + 1) Q
      = if 1 < Q.length then
          (match sortNodes Q with
            | leftChild :: rightChild :: rest2 =>
                buildLoopAux fuel
                  (rest2 ++ [HuffmanTreeNode.node none
                    (leftChild.frequency + rightChild.frequency) leftChild rightChild])
            | q => q)
        else Q := rfl
  rw [hunf, if_pos hlen, hq]

theorem buildLoopAux_stop (fuel : Nat) (Q : List HuffmanTreeNode)
    (hlen : ¬ 1 < Q.length) : buildLoopAux (fuel + 1) Q = Q := by
  unfold buildLoopAux
  rw [if_neg hlen]

theorem buildLoopAux_spec (fr : Char → Nat) :
    ∀ (fuel : Nat) (Q : List HuffmanTreeNode), SInv fr Q → Q ≠ [] →
      Q.length ≤ fuel + 1 →
      ∃ t, buildLoopAux fuel Q = [t] ∧ SInv fr [t] ∧
        queueChars [t] = queueChars Q := by
  intro fuel
  induction fuel with
  | zero =>
    intro Q hinv hne hlen
    match Q, hne, hlen, hinv with
    | [t], _, _, hinv => exact ⟨t, rfl, hinv, rfl⟩
    | t1 :: t2 :: tt, _, hlen, _ => simp at hlen
  | succ fuel ih =>
    intro Q hinv hne hlen
    by_cases hlen2 : 1 < Q.length
    · have hsinv := sInv_sort fr Q hinv
      have hslen : (sortNodes Q).length = Q.length := sortNodes_length Q
      match hq : sortNodes Q with
      | [] => rw [hq] at hslen; simp at hslen; omega
      | [a] => rw [hq] at hslen; simp at hslen; omega
      | a :: b :: rest =>
        rw [hq] at hsinv
        have hstep := sInv_step fr a b rest hsinv
        have hlen3 :
            (rest ++ [HuffmanTreeNode.node none (a.frequency + b.frequency) a b]).length
              ≤ fuel + 1 := by
          have : rest.length + 2 = Q.length := by
            rw [← hslen, hq]; simp
          simp only [List.length_append, List.length_cons, List.length_nil]
          omega
        have hne3 :
            rest ++ [HuffmanTreeNode.node none (a.frequency + b.frequency) a b] ≠ [] := by
          simp
        obtain ⟨t, ht, htinv, htchars⟩ := ih _ hstep hne3 hlen3
        refine ⟨t, ?_, htinv, ?_⟩
        · rw [buildLoopAux_step fuel Q a b rest hlen2 hq]
          exact ht
        · rw [htchars, queueChars_step a b rest, ← hq,
            queueChars_perm _ _ (sortNodes_perm Q)]
    · rw [buildLoopAux_stop fuel Q hlen2]
      match Q, hne, hlen2, hinv with
      | [t], _, _, hinv => exact ⟨t, rfl, hinv, rfl⟩
      | t1 :: t2 :: tt, _, hlen2, _ => exact absurd (by simp) hlen2

theorem mapGet_of_mem_nodup {α : Type} :
    ∀ (m : List (Char × α)) (k : Char) (v : α),
      (m.map Prod.fst).Nodup → (k, v) ∈ m → mapGet m k = some v := by
  intro m
  induction m with
  | nil => intro k v _ hmem; cases hmem
  | cons e rest ih =>
    intro k v hnd hmem
    obtain ⟨k0, v0⟩ := e
    rw [List.map_cons, List.nodup_cons] at hnd
    obtain ⟨hk0, hndrest⟩ := hnd
    rcases List.mem_cons.1 hmem with heq | hmem
    · cases heq
      simp [mapGet]
    · have hk : k ∈ rest.map Prod.fst :=
        List.mem_map.2 ⟨(k, v), hmem, rfl⟩
      have hne : k0 ≠ k := fun hkk => hk0 (hkk ▸ hk)
      simp only [mapGet, if_neg hne]
      exact ih k v hndrest hmem

theorem sInv_initial (input : List Char) :
    SInv (fun ch => input.count ch)
      (createInitialNodeQueue (calculateCharacterFrequencies input)) := by
  have hnd := calc_keys_nodup input
  refine ⟨?_, ?_, ?_, ?_, ?_, ?_⟩
  · intro t ht
    obtain ⟨e, he, rfl⟩ := List.mem_map.1 ht
    intro hcon; cases hcon
  · intro t ht
    obtain ⟨e, he, rfl⟩ := List.mem_map.1 ht
    rfl
  · intro t ht
    obtain ⟨e, he, rfl⟩ := List.mem_map.1 ht
    simp [chars_node, chars]
  · intro t ht
    obtain ⟨e, he, rfl⟩ := List.mem_map.1 ht
    simp [chars_node, chars]
  · unfold createInitialNodeQueue
    rw [List.pairwise_map]
    have hp : (calculateCharacterFrequencies input).Pairwise
        (fun e e' => e.1 ≠ e'.1) := (List.pairwise_map.1 hnd)
    refine hp.imp ?_
    intro e e' hne c hc hc'
    rw [chars_node] at hc hc'
    simp [chars] at hc hc'
    exact hne (hc.symm.trans hc')
  · intro t ht
    obtain ⟨⟨k, v⟩, he, rfl⟩ := List.mem_map.1 ht
    intro ch hch
    rw [chars_node] at hch
    simp [chars] at hch
    subst hch
    have hget : mapGet (calculateCharacterFrequencies input) ch = some v :=
      mapGet_of_mem_nodup _ ch v hnd he
    have hkin : ch ∈ input := by
      rw [← calc_keys_mem input ch, mapGet_mem_keys, hget]
      rfl
    rw [calc_get input ch, if_pos hkin] at hget
    have hv : v = input.count ch := by
      injection hget with hg; exact hg.symm
    show (if some (ch, v).1 = some ch then some (ch, v).2
        else match leafFreq ch HuffmanTreeNode.null with
          | some w => some w
          | none => leafFreq ch HuffmanTreeNode.null) = some (List.count ch input)
    rw [if_pos rfl]
    show some v = some (List.count ch input)
    rw [hv]

theorem queueChars_initial (fm : List (Char × Nat)) :
    queueChars (createInitialNodeQueue fm)
      = ((fm.map Prod.fst : List Char) : Multiset Char) := by
  induction fm with
  | nil => rfl
  | cons e rest ih =>
    rw [List.map_cons]
    unfold createInitialNodeQueue at ih ⊢
    rw [List.map_cons, queueChars_cons, ih]
    rw [chars_node]
    simp [chars]

theorem build_spec (input : List Char) (hne : input ≠ []) :
    buildHuffmanTree input ≠ .null ∧
    wfNode (buildHuffmanTree input) = true ∧
    (chars (buildHuffmanTree input)).Nodup ∧
    ((chars (buildHuffmanTree input) : List Char) : Multiset Char)
      = (((calculateCharacterFrequencies input).map Prod.fst : List Char) : Multiset Char) ∧
    ∀ ch ∈ chars (buildHuffmanTree input),
      leafFreq ch (buildHuffmanTree input) = some (input.count ch) := by
  have hfmne : calculateCharacterFrequencies input ≠ [] := by
    intro hcon
    match input, hne with
    | c :: rest, _ =>
      have : c ∈ (calculateCharacterFrequencies (c :: rest)).map Prod.fst :=
        (calc_keys_mem (c :: rest) c).2 (by simp)
      rw [hcon] at this
      cases this
  have hqne : createInitialNodeQueue (calculateCharacterFrequencies input) ≠ [] := by
    unfold createInitialNodeQueue
    simpa using hfmne
  obtain ⟨t, ht, htinv, htchars⟩ :=
    buildLoopAux_spec (fun ch => input.count ch)
      (createInitialNodeQueue (calculateCharacterFrequencies input)).length
      (createInitialNodeQueue (calculateCharacterFrequencies input))
      (sInv_initial input) hqne (by omega)
  have hbuild : buildHuffmanTree input = t := by
    show (buildLoopAux
        (createInitialNodeQueue (calculateCharacterFrequencies input)).length
        (createInitialNodeQueue (calculateCharacterFrequencies input))).headD .null = t
    rw [ht]
    rfl
  have hmem : t ∈ [t] := by simp
  have hch : ((chars t : List Char) : Multiset Char)
      = (((calculateCharacterFrequencies input).map Prod.fst : List Char) :
          Multiset Char) := by
    rw [← queueChars_initial]
    rw [← htchars, queueChars_cons]
    simp [queueChars]
  rw [hbuild]
  exact ⟨htinv.notNull t hmem, htinv.wfAll t hmem, htinv.nodupChars t hmem, hch,
    htinv.freqs t hmem⟩

/-! ## Consequences of the build specification -/

theorem build_mem_chars (input : List Char) (hne : input ≠ []) (ch : Char) :
    ch ∈ chars (buildHuffmanTree input) ↔ ch ∈ input := by
  obtain ⟨-, -, -, hmul, -⟩ := build_spec input hne
  rw [← Multiset.mem_coe, hmul, Multiset.mem_coe, calc_keys_mem]

theorem build_chars_length (input : List Char) (hne : input ≠ []) :
    (chars (buildHuffmanTree input)).length = input.toFinset.card := by
  obtain ⟨-, -, -, hmul, -⟩ := build_spec input hne
  have hknd := calc_keys_nodup input
  have hlen : (chars (buildHuffmanTree input)).length
      = ((calculateCharacterFrequencies input).map Prod.fst).length := by
    have hc := congrArg Multiset.card hmul
    simpa [Multiset.coe_card] using hc
  have hfin : ((calculateCharacterFrequencies input).map Prod.fst).toFinset
      = input.toFinset := by
    apply Finset.ext
    intro ch
    rw [List.mem_toFinset, List.mem_toFinset, calc_keys_mem]
  rw [hlen, ← List.toFinset_card_of_nodup hknd, hfin]

theorem numLeaves_eq_chars_length : ∀ t : HuffmanTreeNode,
    numLeaves t = (chars t).length := by
  intro t
  induction t with
  | null => rfl
  | node c f l r ihl ihr =>
    rw [numLeaves, chars_node]
    cases c with
    | none => simp [ihl, ihr]
    | some c0 =>
      simp [ihl, ihr]
      omega

theorem chars_ne_of_wf : ∀ t : HuffmanTreeNode,
    wfNode t = true → t ≠ .null → chars t ≠ [] := by
  intro t
  induction t with
  | null => intro _ hne; exact absurd rfl hne
  | node c f l r ihl ihr =>
    intro hwf _
    cases c with
    | some c0 => rw [chars_node]; simp
    | none =>
      obtain ⟨hlne, hrne, hwl, hwr⟩ := wfNode_none f l r hwf
      rw [chars_merge]
      intro hcon
      exact ihl hwl hlne (List.append_eq_nil.1 hcon).1

theorem root_internal_of_two (t : HuffmanTreeNode) (hwf : wfNode t = true)
    (a b : Char) (ha : a ∈ chars t) (hb : b ∈ chars t) (hab : a ≠ b) :
    ∃ f l r, t = .node none f l r := by
  cases t with
  | null => rw [chars] at ha; cases ha
  | node c f l r =>
    cases c with
    | none => exact ⟨f, l, r, rfl⟩
    | some c0 =>
      obtain ⟨hl, hr⟩ := wfNode_some c0 f l r hwf
      subst hl; subst hr
      rw [chars_node] at ha hb
      simp [chars] at ha hb
      exact absurd (ha.trans hb.symm) hab

theorem leaf_of_length_one (t : HuffmanTreeNode) (hwf : wfNode t = true)
    (hne : t ≠ .null) (hlen : (chars t).length = 1) :
    ∃ c fq, t = .node (some c) fq .null .null ∧ chars t = [c] := by
  cases t with
  | null => exact absurd rfl hne
  | node c f l r =>
    cases c with
    | some c0 =>
      obtain ⟨hl, hr⟩ := wfNode_some c0 f l r hwf
      subst hl; subst hr
      exact ⟨c0, f, rfl, by rw [chars_node]; rfl⟩
    | none =>
      obtain ⟨hlne, hrne, hwl, hwr⟩ := wfNode_none f l r hwf
      rw [chars_merge] at hlen
      exfalso
      have h1 : 1 ≤ (chars l).length :=
        List.length_pos.2 (chars_ne_of_wf l hwl hlne)
      have h2 : 1 ≤ (chars r).length :=
        List.length_pos.2 (chars_ne_of_wf r hwr hrne)
      rw [List.length_append] at hlen
      omega

theorem pathTo_internal_ne_nil (ch : Char) (f : Nat) (l r : HuffmanTreeNode)
    (p : List Bool) (hp : pathTo ch (.node none f l r) = some p) : p ≠ [] := by
  have hcn : (none : Option Char) ≠ some ch := by simp
  simp only [pathTo, if_neg hcn] at hp
  cases hl : pathTo ch l with
  | some pl => rw [hl] at hp; cases hp; simp
  | none =>
    rw [hl] at hp
    cases hr : pathTo ch r with
    | some pr => rw [hr] at hp; cases hp; simp
    | none => rw [hr] at hp; cases hp

theorem decodeText_leaf (c : Char) (f : Nat) :
    ∀ bits : List Bool, decodeText (.node (some c) f .null .null) bits = [] := by
  intro bits
  cases bits with
  | nil => rfl
  | cons b rest =>
    show decodeLoop (.node (some c) f .null .null) (b :: rest)
        (.node (some c) f .null .null) = []
    have hb : (if b then HuffmanTreeNode.null else HuffmanTreeNode.null)
        = HuffmanTreeNode.null := by cases b <;> rfl
    simp only [decodeLoop, hb]
    exact decodeLoop_nullCur _ rest

theorem build_single_leaf (input : List Char) (hcard : input.toFinset.card = 1) :
    ∃ c fq, buildHuffmanTree input = .node (some c) fq .null .null ∧
      input.toFinset = {c} := by
  have hne : input ≠ [] := by
    intro hcon
    rw [hcon] at hcard
    simp at hcard
  obtain ⟨hnn, hwf, -, -, -⟩ := build_spec input hne
  have hlen : (chars (buildHuffmanTree input)).length = 1 := by
    rw [build_chars_length input hne, hcard]
  obtain ⟨c, fq, heq, hchars⟩ := leaf_of_length_one _ hwf hnn hlen
  refine ⟨c, fq, heq, ?_⟩
  obtain ⟨a, ha⟩ := Finset.card_eq_one.1 hcard
  rw [ha]
  have hcin : c ∈ input := by
    rw [← build_mem_chars input hne c, hchars]
    simp
  have : c ∈ input.toFinset := List.mem_toFinset.2 hcin
  rw [ha, Finset.mem_singleton] at this
  rw [this]

/-! ## Claim C5: leaf count equals the number of distinct symbols -/

/-- C5: For every input with at least two distinct symbols, the number of
leaves of the built tree equals the number of distinct symbols of the input;
for an input with exactly one distinct symbol, the built tree is a single
leaf holding that symbol. -/
theorem claim_C5 (input : List Char) :
    (2 ≤ input.toFinset.card →
      numLeaves (buildHuffmanTree input) = input.toFinset.card) ∧
    (input.toFinset.card = 1 →
      ∃ c fq, buildHuffmanTree input = .node (some c) fq .null .null ∧
        input.toFinset = {c}) := by
  constructor
  · intro hcard
    have hne : input ≠ [] := by
      intro hcon
      rw [hcon] at hcard
      simp at hcard
    rw [numLeaves_eq_chars_length, build_chars_length input hne]
  · exact build_single_leaf input

theorem claim_C5_witness :
    (2 ≤ (['a', 'b'] : List Char).toFinset.card ∧
      numLeaves (buildHuffmanTree ['a', 'b'])
        = (['a', 'b'] : List Char).toFinset.card) ∧
    ((['a', 'a'] : List Char).toFinset.card = 1 ∧
      ∃ c fq, buildHuffmanTree ['a', 'a'] = .node (some c) fq .null .null ∧
        (['a', 'a'] : List Char).toFinset = {c}) :=
  ⟨⟨by decide, (claim_C5 ['a', 'b']).1 (by decide)⟩,
   ⟨by decide, (claim_C5 ['a', 'a']).2 (by decide)⟩⟩

/-! ## Claim C6: a lone symbol gets the empty code -/

/-- C6: For every non-empty input with exactly one distinct symbol, code
generation assigns that symbol the empty bit string as its code (the single
leaf is the root itself, reached with no branch taken). -/
theorem claim_C6 (input : List Char) (hcard : input.toFinset.card = 1) :
    ∀ c ∈ input,
      mapGet (generateHuffmanCodes (buildHuffmanTree input)) c = some [] := by
  intro c hcin
  obtain ⟨c0, fq, heq, hfin⟩ := build_single_leaf input hcard
  have hc : c = c0 := by
    have : c ∈ input.toFinset := List.mem_toFinset.2 hcin
    rw [hfin, Finset.mem_singleton] at this
    exact this
  subst hc
  rw [heq]
  have hnd : (chars (HuffmanTreeNode.node (some c) fq .null .null)).Nodup := by
    rw [chars_node]
    simp [chars]
  rw [generateHuffmanCodes_get _ c hnd]
  have hmem : c ∈ chars (HuffmanTreeNode.node (some c) fq .null .null) := by
    rw [chars_node]; simp [chars]
  rw [if_pos hmem]
  simp [pathTo]

theorem claim_C6_witness :
    (['a', 'a'] : List Char).toFinset.card = 1 ∧
    mapGet (generateHuffmanCodes (buildHuffmanTree ['a', 'a'])) 'a' = some [] :=
  ⟨by decide, claim_C6 ['a', 'a'] (by decide) 'a' (by decide)⟩

/-! ## Claim C10: a single-leaf tree decodes every bit sequence to nothing -/

/-- C10: When the tree is built from an input with exactly one distinct
symbol (a single leaf), the decoder returns the empty symbol sequence for
every bit sequence, including non-empty ones: the first bit moves from the
root leaf to an absent child and decoding stops without emitting anything. -/
theorem claim_C10 (input : List Char) (hcard : input.toFinset.card = 1)
    (bits : List Bool) : decodeText (buildHuffmanTree input) bits = [] := by
  obtain ⟨c, fq, heq, -⟩ := build_single_leaf input hcard
  rw [heq]
  exact decodeText_leaf c fq bits

theorem claim_C10_witness :
    (['a'] : List Char).toFinset.card = 1 ∧
    decodeText (buildHuffmanTree ['a']) [true, false] = [] :=
  ⟨by decide, claim_C10 ['a'] (by decide) [true, false]⟩

/-! ## Claim C2: generated code tables are prefix-free -/

/-- C2: For every input with at least two distinct symbols, in the code table
produced by generating codes from the built tree, for every pair of distinct
symbols neither symbol's code starts the other symbol's code. -/
theorem claim_C2 (input : List Char)
    (hdis : ∃ a ∈ input, ∃ b ∈ input, a ≠ b)
    (x y : Char) (cx cy : List Bool) (hxy : x ≠ y)
    (hx : mapGet (generateHuffmanCodes (buildHuffmanTree input)) x = some cx)
    (hy : mapGet (generateHuffmanCodes (buildHuffmanTree input)) y = some cy) :
    ¬ IsStart cx cy ∧ ¬ IsStart cy cx := by
  obtain ⟨a, ha, b, hb, hab⟩ := hdis
  have hne : input ≠ [] := by rintro rfl; cases ha
  obtain ⟨-, hwf, hnd, -, -⟩ := build_spec input hne
  rw [generateHuffmanCodes_get _ x hnd] at hx
  rw [generateHuffmanCodes_get _ y hnd] at hy
  by_cases hxm : x ∈ chars (buildHuffmanTree input)
  · by_cases hym : y ∈ chars (buildHuffmanTree input)
    · rw [if_pos hxm] at hx
      rw [if_pos hym] at hy
      exact ⟨pathTo_not_start _ x y cx cy hwf hxy hx hy,
        pathTo_not_start _ y x cy cx hwf (fun h => hxy h.symm) hy hx⟩
    · rw [if_neg hym] at hy; cases hy
  · rw [if_neg hxm] at hx; cases hx

theorem claim_C2_witness :
    (∃ a ∈ (['a', 'b'] : List Char), ∃ b ∈ (['a', 'b'] : List Char), a ≠ b) ∧
    ('a' : Char) ≠ 'b' ∧
    mapGet (generateHuffmanCodes (buildHuffmanTree ['a', 'b'])) 'a' = some [false] ∧
    mapGet (generateHuffmanCodes (buildHuffmanTree ['a', 'b'])) 'b' = some [true] ∧
    (¬ IsStart [false] [true] ∧ ¬ IsStart [true] [false]) :=
  ⟨⟨'a', by decide, 'b', by decide, by decide⟩, by decide, by decide, by decide,
    claim_C2 ['a', 'b'] ⟨'a', by decide, 'b', by decide, by decide⟩ 'a' 'b'
      [false] [true] (by decide) (by decide) (by decide)⟩

/-! ## Claim C1: the round trip -/

/-- Decoding the concatenated codes of a symbol list over an internal-rooted,
well-formed, duplicate-free tree returns the list. -/
theorem decode_encode_list (root : HuffmanTreeNode)
    (hwf : wfNode root = true) (hnd : (chars root).Nodup)
    (hint : ∃ f l r, root = .node none f l r) :
    ∀ L : List Char, (∀ c ∈ L, c ∈ chars root) →
      decodeText root (encodeText (generateHuffmanCodes root) L) = L := by
  intro L
  induction L with
  | nil => intro _; rfl
  | cons c L' ih =>
    intro hmem
    have hc : c ∈ chars root := hmem c (by simp)
    obtain ⟨p, hp⟩ := Option.isSome_iff_exists.1 ((pathTo_isSome_iff c root).2 hc)
    have hget : mapGet (generateHuffmanCodes root) c = some p := by
      rw [generateHuffmanCodes_get root c hnd, if_pos hc, hp]
    rw [encodeText_cons, hget]
    obtain ⟨f0, l0, r0, hroot⟩ := hint
    have hpne : p ≠ [] := by
      rw [hroot] at hp
      exact pathTo_internal_ne_nil c f0 l0 r0 p hp
    obtain ⟨fc, hfol⟩ := pathTo_follow c root p hwf hp
    unfold decodeText
    rw [show (some p).getD [] = p from rfl,
      decodeLoop_emit root p root c fc (encodeText (generateHuffmanCodes root) L')
        hpne hwf hfol]
    have := ih (fun d hd => hmem d (by simp [hd]))
    unfold decodeText at this
    rw [this]

/-- C1 (amended): for every input with at least two distinct symbols, the
full pipeline round trip (build, generate, encode, decode with the same
tree) returns exactly the input. -/
theorem claim_C1_amended (input : List Char)
    (hdis : ∃ a ∈ input, ∃ b ∈ input, a ≠ b) :
    decodeText (buildHuffmanTree input)
      (encodeText (generateHuffmanCodes (buildHuffmanTree input)) input) = input := by
  obtain ⟨a, ha, b, hb, hab⟩ := hdis
  have hne : input ≠ [] := by rintro rfl; cases ha
  obtain ⟨-, hwf, hnd, -, -⟩ := build_spec input hne
  have hint : ∃ f l r, buildHuffmanTree input = .node none f l r :=
    root_internal_of_two _ hwf a b
      ((build_mem_chars input hne a).2 ha) ((build_mem_chars input hne b).2 hb) hab
  exact decode_encode_list _ hwf hnd hint input
    (fun c hc => (build_mem_chars input hne c).2 hc)

/-- C1 (counterexample): the claim as stated fails on the one-character
input, whose lone symbol gets the empty code: the encoding is empty and the
decode returns the empty sequence, not the input. -/
theorem claim_C1_counterexample :
    decodeText (buildHuffmanTree ['a'])
      (encodeText (generateHuffmanCodes (buildHuffmanTree ['a'])) ['a'])
      ≠ ['a'] := by decide

theorem claim_C1_witness :
    (∃ a ∈ (['a', 'b'] : List Char), ∃ b ∈ (['a', 'b'] : List Char), a ≠ b) ∧
    decodeText (buildHuffmanTree ['a', 'b'])
      (encodeText (generateHuffmanCodes (buildHuffmanTree ['a', 'b'])) ['a', 'b'])
      = ['a', 'b'] :=
  ⟨⟨'a', by decide, 'b', by decide, by decide⟩,
    claim_C1_amended ['a', 'b'] ⟨'a', by decide, 'b', by decide, by decide⟩⟩

/-! ## Ordering invariant: helper lemmas -/

theorem internal_of_path (d : HuffmanTreeNode) (hwf : wfNode d = true)
    (y : Char) (py : List Bool) (hp : pathTo y d = some py) (hne : py ≠ []) :
    d.character = none := by
  cases d with
  | null => rw [pathTo] at hp; cases hp
  | node c f l r =>
    cases c with
    | none => rfl
    | some c0 =>
      obtain ⟨hl, hr⟩ := wfNode_some c0 f l r hwf
      subst hl; subst hr
      by_cases hc : (some c0 : Option Char) = some y
      · rw [pathTo, if_pos hc] at hp
        cases hp
        exact absurd rfl hne
      · rw [pathTo, if_neg hc] at hp
        simp [pathTo] at hp

theorem path_merge_cases (x : Char) (f : Nat) (a b : HuffmanTreeNode)
    (p : List Bool) (hp : pathTo x (.node none f a b) = some p) :
    (∃ p0, pathTo x a = some p0 ∧ p = false :: p0) ∨
    (pathTo x a = none ∧ ∃ p0, pathTo x b = some p0 ∧ p = true :: p0) := by
  have hcn : (none : Option Char) ≠ some x := by simp
  rw [pathTo, if_neg hcn] at hp
  cases hl : pathTo x a with
  | some p0 =>
    rw [hl] at hp
    cases hp
    exact Or.inl ⟨p0, rfl, rfl⟩
  | none =>
    rw [hl] at hp
    cases hr : pathTo x b with
    | some p0 =>
      rw [hr] at hp
      cases hp
      exact Or.inr ⟨rfl, p0, rfl, rfl⟩
    | none => rw [hr] at hp; cases hp

theorem pathTo_leaf_inv (x k : Char) (v : Nat) (p : List Bool)
    (hp : pathTo x (.node (some k) v .null .null) = some p) :
    x = k ∧ p = [] := by
  by_cases hc : (some k : Option Char) = some x
  · rw [pathTo, if_pos hc] at hp
    cases hp
    injection hc with hc
    exact ⟨hc.symm, rfl⟩
  · rw [pathTo, if_neg hc] at hp
    simp [pathTo] at hp

theorem leafFreq_leaf_inv (x k : Char) (v : Nat) (w : Nat)
    (hw : leafFreq x (.node (some k) v .null .null) = some w) :
    x = k ∧ w = v := by
  by_cases hc : (some k : Option Char) = some x
  · rw [leafFreq, if_pos hc] at hw
    cases hw
    injection hc with hc
    exact ⟨hc.symm, rfl⟩
  · rw [leafFreq, if_neg hc] at hw
    simp [leafFreq] at hw

theorem ne_of_disj (a b : HuffmanTreeNode)
    (hd : ∀ c ∈ chars a, c ∉ chars b) (hne : chars a ≠ []) : a ≠ b := by
  rintro rfl
  match hc : chars a, hne with
  | c :: cs, _ =>
    exact hd c (by rw [hc]; simp) (by rw [hc]; simp)

theorem rel_swap (t1 t2 : HuffmanTreeNode) (h : Rel t1 t2)
    (hlt : t2.frequency < t1.frequency) : Rel t2 t1 := by
  obtain ⟨c1, c2⟩ := h
  constructor
  · intro x y px py fx fy hpx hpy hfx hfy hxy
    obtain ⟨hle, htie⟩ := c2 x y px py fx fy hpx hpy hfx hfy hxy
    exact ⟨hle, fun heq => by have := htie heq; omega⟩
  · intro x y px py fx fy hpx hpy hfx hfy hxy
    obtain ⟨hle, htie⟩ := c1 x y px py fx fy hpx hpy hfx hfy hxy
    exact ⟨hle, fun heq => Nat.le_of_lt (htie heq)⟩

theorem leafRel (e e' : Char × Nat) :
    Rel (.node (some e.1) e.2 .null .null) (.node (some e'.1) e'.2 .null .null) := by
  constructor
  · intro x y px py fx fy hpx hpy hfx hfy hxy
    obtain ⟨-, rfl⟩ := pathTo_leaf_inv x e.1 e.2 px hpx
    obtain ⟨-, rfl⟩ := pathTo_leaf_inv y e'.1 e'.2 py hpy
    obtain ⟨-, rfl⟩ := leafFreq_leaf_inv x e.1 e.2 fx hfx
    obtain ⟨-, rfl⟩ := leafFreq_leaf_inv y e'.1 e'.2 fy hfy
    exact ⟨Nat.le_refl _, fun _ => by
      show e'.2 < e.2
      exact hxy⟩
  · intro x y px py fx fy hpx hpy hfx hfy hxy
    obtain ⟨-, rfl⟩ := pathTo_leaf_inv x e'.1 e'.2 px hpx
    obtain ⟨-, rfl⟩ := pathTo_leaf_inv y e.1 e.2 py hpy
    obtain ⟨-, rfl⟩ := leafFreq_leaf_inv x e'.1 e'.2 fx hfx
    obtain ⟨-, rfl⟩ := leafFreq_leaf_inv y e.1 e.2 fy hfy
    exact ⟨Nat.le_refl _, fun _ => by
      show e.2 ≤ e'.2
      exact Nat.le_of_lt hxy⟩

theorem oInv_initial (fm : List (Char × Nat)) : OInv (createInitialNodeQueue fm) := by
  refine ⟨?_, ?_, ?_⟩
  · intro t ht
    obtain ⟨e, he, rfl⟩ := List.mem_map.1 ht
    intro x y px py fx fy hpx hpy hfx hfy hxy
    obtain ⟨-, rfl⟩ := pathTo_leaf_inv x e.1 e.2 px hpx
    obtain ⟨-, rfl⟩ := pathTo_leaf_inv y e.1 e.2 py hpy
    exact Nat.le_refl _
  · unfold createInitialNodeQueue
    induction fm with
    | nil => simp
    | cons e rest ih =>
      rw [List.map_cons, List.pairwise_cons]
      refine ⟨?_, ih⟩
      intro z hz
      obtain ⟨e', he', rfl⟩ := List.mem_map.1 hz
      exact leafRel e e'
  · intro d hd hdc
    obtain ⟨e, he, rfl⟩ := List.mem_map.1 hd
    cases hdc

theorem oInv_sort (Q : List HuffmanTreeNode) (h : OInv Q) : OInv (sortNodes Q) := by
  refine ⟨?_, ?_, ?_⟩
  · exact fun t ht => h.mono t ((sortNodes_mem Q t).1 ht)
  · exact sortNodes_pairwise rel_swap Q h.cross
  · intro d hd hdc e he f hf hef
    exact h.twoMin d ((sortNodes_mem Q d).1 hd) hdc e ((sortNodes_mem Q e).1 he)
      f ((sortNodes_mem Q f).1 hf) hef

/-- One merge step of the loop preserves the ordering invariant: the two
extracted candidates are the sorted queue's first two, the new parent is
pushed at the end. -/
theorem oInv_step (fr : Char → Nat) (a b : HuffmanTreeNode)
    (rest : List HuffmanTreeNode)
    (hS : SInv fr (a :: b :: rest)) (hO : OInv (a :: b :: rest))
    (hsorted : (a :: b :: rest).Pairwise (fun u v => u.frequency ≤ v.frequency)) :
    OInv (rest ++ [.node none (a.frequency + b.frequency) a b]) := by
  have hwfa : wfNode a = true := hS.wfAll a (by simp)
  have hwfb : wfNode b = true := hS.wfAll b (by simp)
  have hchne : chars a ≠ [] := hS.charsNe a (by simp)
  have hd0 := hS.disj
  rw [List.pairwise_cons] at hd0
  obtain ⟨hda, hd1⟩ := hd0
  have hdab : ∀ c ∈ chars a, c ∉ chars b := hda b (by simp)
  have hneab : a ≠ b := ne_of_disj a b hdab hchne
  have hc0 := hO.cross
  rw [List.pairwise_cons] at hc0
  obtain ⟨hZ1, hc1⟩ := hc0
  rw [List.pairwise_cons] at hc1
  obtain ⟨hZ2, hcrest⟩ := hc1
  have hRelab : Rel a b := hZ1 b (by simp)
  have hs0 := hsorted
  rw [List.pairwise_cons] at hs0
  obtain ⟨hs1, hs2⟩ := hs0
  rw [List.pairwise_cons] at hs2
  obtain ⟨hs3, -⟩ := hs2
  refine ⟨?_, ?_, ?_⟩
  · -- mono
    intro t ht
    rcases List.mem_append.1 ht with ht | ht
    · exact hO.mono t (by simp [ht])
    · rw [List.mem_singleton.1 ht]
      intro x y px' py' fx fy hpx hpy hfx hfy hlt
      rcases path_merge_cases x _ a b px' hpx with
        ⟨px0, hpxa, rfl⟩ | ⟨hpxna, px0, hpxb, rfl⟩
      · have hxa : x ∈ chars a := (pathTo_isSome_iff x a).1 (by rw [hpxa]; rfl)
        have hfxa : leafFreq x a = some fx := by
          rw [leafFreq_merge_left x _ a b hxa] at hfx; exact hfx
        rcases path_merge_cases y _ a b py' hpy with
          ⟨py0, hpya, rfl⟩ | ⟨hpyna, py0, hpyb, rfl⟩
        · have hya : y ∈ chars a := (pathTo_isSome_iff y a).1 (by rw [hpya]; rfl)
          have hfya : leafFreq y a = some fy := by
            rw [leafFreq_merge_left y _ a b hya] at hfy; exact hfy
          have := hO.mono a (by simp) x y px0 py0 fx fy hpxa hpya hfxa hfya hlt
          simp only [List.length_cons]
          omega
        · have hyna : y ∉ chars a := (pathTo_eq_none_iff y a).1 hpyna
          have hfyb : leafFreq y b = some fy := by
            rw [leafFreq_merge_right y _ a b hyna] at hfy; exact hfy
          obtain ⟨hle, -⟩ := hRelab.1 x y px0 py0 fx fy hpxa hpyb hfxa hfyb hlt
          simp only [List.length_cons]
          omega
      · have hxna : x ∉ chars a := (pathTo_eq_none_iff x a).1 hpxna
        have hfxb : leafFreq x b = some fx := by
          rw [leafFreq_merge_right x _ a b hxna] at hfx; exact hfx
        rcases path_merge_cases y _ a b py' hpy with
          ⟨py0, hpya, rfl⟩ | ⟨hpyna, py0, hpyb, rfl⟩
        · have hya : y ∈ chars a := (pathTo_isSome_iff y a).1 (by rw [hpya]; rfl)
          have hfya : leafFreq y a = some fy := by
            rw [leafFreq_merge_left y _ a b hya] at hfy; exact hfy
          obtain ⟨hle, -⟩ := hRelab.2 x y px0 py0 fx fy hpxb hpya hfxb hfya hlt
          simp only [List.length_cons]
          omega
        · have hyna : y ∉ chars a := (pathTo_eq_none_iff y a).1 hpyna
          have hfyb : leafFreq y b = some fy := by
            rw [leafFreq_merge_right y _ a b hyna] at hfy; exact hfy
          have := hO.mono b (by simp) x y px0 py0 fx fy hpxb hpyb hfxb hfyb hlt
          simp only [List.length_cons]
          omega
  · -- cross
    rw [List.pairwise_append]
    refine ⟨hcrest, by simp, ?_⟩
    intro d hd e he
    rw [List.mem_singleton.1 he]
    have hwfd : wfNode d = true := hS.wfAll d (by simp [hd])
    have had_le : a.frequency ≤ d.frequency := hs1 d (by simp [hd])
    have hbd_le : b.frequency ≤ d.frequency := hs3 d hd
    have hRelad : Rel a d := hZ1 d (by simp [hd])
    have hRelbd : Rel b d := hZ2 d hd
    constructor
    · -- x in d, y in the new parent
      intro x y px py' fx fy hpx hpy hfx hfy hlt
      rcases path_merge_cases y _ a b py' hpy with
        ⟨py0, hpya, rfl⟩ | ⟨hpyna, py0, hpyb, rfl⟩
      · have hya : y ∈ chars a := (pathTo_isSome_iff y a).1 (by rw [hpya]; rfl)
        have hfya : leafFreq y a = some fy := by
          rw [leafFreq_merge_left y _ a b hya] at hfy; exact hfy
        obtain ⟨hle, -⟩ := hRelad.2 x y px py0 fx fy hpx hpya hfx hfya hlt
        refine ⟨by simp only [List.length_cons]; omega, ?_⟩
        intro heq
        simp only [List.length_cons] at heq
        omega
      · have hyna : y ∉ chars a := (pathTo_eq_none_iff y a).1 hpyna
        have hfyb : leafFreq y b = some fy := by
          rw [leafFreq_merge_right y _ a b hyna] at hfy; exact hfy
        obtain ⟨hle, -⟩ := hRelbd.2 x y px py0 fx fy hpx hpyb hfx hfyb hlt
        refine ⟨by simp only [List.length_cons]; omega, ?_⟩
        intro heq
        simp only [List.length_cons] at heq
        omega
    · -- x in the new parent, y in d
      intro x y px' py fx fy hpx hpy hfx hfy hlt
      have hdbound : py ≠ [] → d.frequency ≤ a.frequency + b.frequency := by
        intro hne
        exact hO.twoMin d (by simp [hd])
          (internal_of_path d hwfd y py hpy hne) a (by simp) b (by simp) hneab
      rcases path_merge_cases x _ a b px' hpx with
        ⟨px0, hpxa, rfl⟩ | ⟨hpxna, px0, hpxb, rfl⟩
      · have hxa : x ∈ chars a := (pathTo_isSome_iff x a).1 (by rw [hpxa]; rfl)
        have hfxa : leafFreq x a = some fx := by
          rw [leafFreq_merge_left x _ a b hxa] at hfx; exact hfx
        obtain ⟨hle, htie⟩ := hRelad.1 x y px0 py fx fy hpxa hpy hfxa hfy hlt
        have hstrict : px0.length < py.length := by
          rcases Nat.lt_or_ge px0.length py.length with h | h
          · exact h
          · have heq0 : px0.length = py.length := Nat.le_antisymm hle h
            have := htie heq0
            omega
        refine ⟨by simp only [List.length_cons]; omega, ?_⟩
        intro heq
        have hpyne : py ≠ [] := by
          intro hcon
          rw [hcon] at heq
          simp only [List.length_cons, List.length_nil] at heq
          omega
        exact hdbound hpyne
      · have hxna : x ∉ chars a := (pathTo_eq_none_iff x a).1 hpxna
        have hfxb : leafFreq x b = some fx := by
          rw [leafFreq_merge_right x _ a b hxna] at hfx; exact hfx
        obtain ⟨hle, htie⟩ := hRelbd.1 x y px0 py fx fy hpxb hpy hfxb hfy hlt
        have hstrict : px0.length < py.length := by
          rcases Nat.lt_or_ge px0.length py.length with h | h
          · exact h
          · have heq0 : px0.length = py.length := Nat.le_antisymm hle h
            have := htie heq0
            omega
        refine ⟨by simp only [List.length_cons]; omega, ?_⟩
        intro heq
        have hpyne : py ≠ [] := by
          intro hcon
          rw [hcon] at heq
          simp only [List.length_cons, List.length_nil] at heq
          omega
        exact hdbound hpyne
  · -- twoMin
    intro d hd hdc e he f' hf' hef
    have hdbound : d.frequency ≤ a.frequency + b.frequency := by
      rcases List.mem_append.1 hd with hd | hd
      · exact hO.twoMin d (by simp [hd]) hdc a (by simp) b (by simp) hneab
      · rw [List.mem_singleton.1 hd]
        exact Nat.le_refl _
    have hebound : a.frequency + b.frequency ≤ e.frequency + f'.frequency := by
      rcases List.mem_append.1 he with he | he
      · rcases List.mem_append.1 hf' with hf' | hf'
        · have h1 : a.frequency ≤ e.frequency := hs1 e (by simp [he])
          have h2 : b.frequency ≤ f'.frequency := hs3 f' hf'
          omega
        · rw [List.mem_singleton.1 hf']
          show a.frequency + b.frequency
              ≤ e.frequency + (a.frequency + b.frequency)
          omega
      · rw [List.mem_singleton.1 he]
        show a.frequency + b.frequency
            ≤ (a.frequency + b.frequency) + f'.frequency
        omega
    omega

theorem oInv_loop (fr : Char → Nat) :
    ∀ (fuel : Nat) (Q : List HuffmanTreeNode), SInv fr Q → OInv Q →
      Q.length ≤ fuel + 1 → OInv (buildLoopAux fuel Q) := by
  intro fuel
  induction fuel with
  | zero => intro Q _ hO _; exact hO
  | succ fuel ih =>
    intro Q hS hO hlen
    by_cases hlen2 : 1 < Q.length
    · have hslen : (sortNodes Q).length = Q.length := sortNodes_length Q
      match hq : sortNodes Q with
      | [] => rw [hq] at hslen; simp at hslen; omega
      | [a] => rw [hq] at hslen; simp at hslen; omega
      | a :: b :: rest =>
        rw [buildLoopAux_step fuel Q a b rest hlen2 hq]
        have hSsort : SInv fr (a :: b :: rest) := hq ▸ sInv_sort fr Q hS
        have hOsort : OInv (a :: b :: rest) := hq ▸ oInv_sort Q hO
        have hsorted : (a :: b :: rest).Pairwise
            (fun u v => u.frequency ≤ v.frequency) := hq ▸ sortNodes_sorted Q
        refine ih _ (sInv_step fr a b rest hSsort)
          (oInv_step fr a b rest hSsort hOsort hsorted) ?_
        have : rest.length + 2 = Q.length := by
          rw [← hslen, hq]; simp
        simp only [List.length_append, List.length_cons, List.length_nil]
        omega
    · rw [buildLoopAux_stop fuel Q hlen2]
      exact hO

theorem build_mono (input : List Char) (hne : input ≠ []) :
    DepthMono (buildHuffmanTree input) := by
  have hfmne : calculateCharacterFrequencies input ≠ [] := by
    intro hcon
    match input, hne with
    | c :: rest, _ =>
      have : c ∈ (calculateCharacterFrequencies (c :: rest)).map Prod.fst :=
        (calc_keys_mem (c :: rest) c).2 (by simp)
      rw [hcon] at this
      cases this
  have hqne : createInitialNodeQueue (calculateCharacterFrequencies input) ≠ [] := by
    unfold createInitialNodeQueue
    simpa using hfmne
  obtain ⟨t, ht, -, -⟩ :=
    buildLoopAux_spec (fun ch => input.count ch)
      (createInitialNodeQueue (calculateCharacterFrequencies input)).length
      (createInitialNodeQueue (calculateCharacterFrequencies input))
      (sInv_initial input) hqne (by omega)
  have hO := oInv_loop (fun ch => input.count ch)
    (createInitialNodeQueue (calculateCharacterFrequencies input)).length
    (createInitialNodeQueue (calculateCharacterFrequencies input))
    (sInv_initial input) (oInv_initial _) (by omega)
  rw [ht] at hO
  have hbuild : buildHuffmanTree input = t := by
    show (buildLoopAux
        (createInitialNodeQueue (calculateCharacterFrequencies input)).length
        (createInitialNodeQueue (calculateCharacterFrequencies input))).headD .null = t
    rw [ht]
    rfl
  rw [hbuild]
  exact hO.mono t (by simp)

/-! ## Claim C3: higher frequency never means a longer code -/

/-- C3: For every input, in the code table produced by the pipeline, a symbol
with strictly higher frequency (occurrence count in the input) never receives
a strictly longer code than a symbol with strictly lower frequency. -/
theorem claim_C3 (input : List Char) (a b : Char) (ca cb : List Bool)
    (hca : mapGet (generateHuffmanCodes (buildHuffmanTree input)) a = some ca)
    (hcb : mapGet (generateHuffmanCodes (buildHuffmanTree input)) b = some cb)
    (hfreq : input.count b < input.count a) :
    ca.length ≤ cb.length := by
  by_cases hne : input = []
  · subst hne
    rw [show generateHuffmanCodes (buildHuffmanTree ([] : List Char)) = [] from rfl]
      at hca
    simp [mapGet] at hca
  · obtain ⟨-, hwf, hnd, -, hfr⟩ := build_spec input hne
    rw [generateHuffmanCodes_get _ a hnd] at hca
    rw [generateHuffmanCodes_get _ b hnd] at hcb
    by_cases ham : a ∈ chars (buildHuffmanTree input)
    · by_cases hbm : b ∈ chars (buildHuffmanTree input)
      · rw [if_pos ham] at hca
        rw [if_pos hbm] at hcb
        exact build_mono input hne a b ca cb (input.count a) (input.count b)
          hca hcb (hfr a ham) (hfr b hbm) hfreq
      · rw [if_neg hbm] at hcb; cases hcb
    · rw [if_neg ham] at hca; cases hca

theorem claim_C3_witness :
    mapGet (generateHuffmanCodes (buildHuffmanTree ['a', 'a', 'b'])) 'a'
        = some [true] ∧
    mapGet (generateHuffmanCodes (buildHuffmanTree ['a', 'a', 'b'])) 'b'
        = some [false] ∧
    (['a', 'a', 'b'] : List Char).count 'b' < (['a', 'a', 'b'] : List Char).count 'a' ∧
    ([true] : List Bool).length ≤ ([false] : List Bool).length :=
  ⟨by decide, by decide, by decide,
    claim_C3 ['a', 'a', 'b'] 'a' 'b' [true] [false]
      (by decide) (by decide) (by decide)⟩

end Buzz
